import Mathlib

/-!
Verification of the ternary Merkle tree implementation in `src/lib.rs`.

The Rust code hashes with `DefaultHasher`; we keep the development parametric
in two hash functions:
  * `hs : String → Nat` — the hash of a data string, used both to build a
    `Leaf` and by `calculate_hash` for the proof target (the Rust code feeds
    the string to a fresh `DefaultHasher` in both places);
  * `h3 : Node → Node → Node → Nat` — the aggregate hash of a branch.  In the
    Rust code the three child *nodes* are fed structurally (via `derive(Hash)`)
    into a fresh hasher, so the aggregate is a function of the three whole
    child subtrees; `h3` captures exactly that dependency.
Concrete executable instantiations (`hs0`, `h3c`) are provided for evaluating
the development on explicit inputs.
-/

/-- Mirrors Rust `enum Node`: a leaf stores its hash and the data string, a
branch stores its aggregate hash and exactly three children. -/
inductive Node : Type where
  | Leaf (hash : Nat) (data : String)
  | Branch (hash : Nat) (left : Node) (middle : Node) (right : Node)
deriving DecidableEq, Repr

/-- Mirrors Rust `Node::get_hash`. -/
def Node.get_hash : Node → Nat
  | .Leaf h _ => h
  | .Branch h _ _ _ => h

/-- Mirrors Rust `enum Direction`. -/
inductive Direction : Type where
  | Left
  | Middle
  | Right
deriving DecidableEq, Repr

/-- Mirrors Rust `struct Proof`. -/
structure Proof : Type where
  target_hash : Nat
  proof_hashes : List Nat
  proof_directions : List Direction
deriving DecidableEq, Repr

/-- Mirrors Rust `struct MerkleTree`. -/
structure MerkleTree : Type where
  root : Option Node
deriving DecidableEq, Repr

/-- One round of the inner `while !nodes.is_empty()` loop of
`MerkleTree::build_tree`, applied to the whole level.  The Rust loop takes
nodes with `Vec::pop`, i.e. from the *end* of the vector, so this function is
applied to the reversed level (see `MerkleTree.build_tree_loop`): `left` is the
first pop, `middle` the second (falling back to a clone of `left`), `right`
the third (falling back to a clone of `left`).  Branches are returned in
creation order, matching the pushes into `new_level`. -/
def MerkleTree.build_tree_pass (h3 : Node → Node → Node → Nat) : List Node → List Node
  | [] => []
  | [l] => [Node.Branch (h3 l l l) l l l]
  | [l, m] => [Node.Branch (h3 l m l) l m l]
  | l :: m :: r :: rest =>
      Node.Branch (h3 l m r) l m r :: MerkleTree.build_tree_pass h3 rest

/-- The outer `while nodes.len() > 1` loop of `MerkleTree::build_tree`,
encoded with explicit fuel.  Each iteration folds the current level (consumed
from its end, hence the `reverse`) into the next level.  Fuel equal to the
initial length is always sufficient (`build_tree_loop_fuel_invariant`), since
every iteration on a level of length `> 1` strictly shrinks it
(`build_tree_pass_length_lt`). -/
def MerkleTree.build_tree_loop (h3 : Node → Node → Node → Nat) : Nat → List Node → List Node
  | 0, nodes => nodes
  | fuel + 1, nodes =>
      if nodes.length > 1 then
        MerkleTree.build_tree_loop h3 fuel (MerkleTree.build_tree_pass h3 nodes.reverse)
      else
        nodes

/-- Mirrors Rust `MerkleTree::build_tree`: `None` on an empty input, otherwise
run the level-folding loop and return the final `nodes.pop()` (the last
remaining element). -/
def MerkleTree.build_tree (h3 : Node → Node → Node → Nat) (nodes : List Node) : Option Node :=
  if nodes.isEmpty then none
  else (MerkleTree.build_tree_loop h3 nodes.length nodes).getLast?

/-- Mirrors Rust `MerkleTree::new`: hash each datum into a `Leaf`, then build. -/
def MerkleTree.new (hs : String → Nat) (h3 : Node → Node → Node → Nat)
    (data : List String) : MerkleTree :=
  ⟨MerkleTree.build_tree h3 (data.map (fun d => Node.Leaf (hs d) d))⟩

/-- Mirrors Rust `MerkleTree::root_hash`. -/
def MerkleTree.root_hash (t : MerkleTree) : Option Nat :=
  t.root.map (fun n =>
    match n with
    | .Leaf h _ => h
    | .Branch h _ _ _ => h)

/-- Mirrors Rust `MerkleTree::calculate_hash`: always returns `Some`. -/
def MerkleTree.calculate_hash (hs : String → Nat) (data : String) : Option Nat :=
  some (hs data)

/-- Mirrors Rust `MerkleTree::proof_recursion`.  The two `&mut Vec`
accumulators are threaded explicitly; `Vec::push` appends at the end.  All
three children are searched before a direction is chosen, and all three
recursive calls thread the *same* accumulators. -/
def Node.proof_recursion : Node → Nat → List Nat → List Direction →
    Bool × List Nat × List Direction
  | .Leaf h _, target, ph, pd => (h == target, ph, pd)
  | .Branch h l m r, target, ph, pd =>
      if h == target then (true, ph, pd)
      else
        let resL := Node.proof_recursion l target ph pd
        let resM := Node.proof_recursion m target resL.2.1 resL.2.2
        let resR := Node.proof_recursion r target resM.2.1 resM.2.2
        if resL.1 then (true, resR.2.1 ++ [l.get_hash], resR.2.2 ++ [Direction.Left])
        else if resM.1 then (true, resR.2.1 ++ [m.get_hash], resR.2.2 ++ [Direction.Middle])
        else if resR.1 then (true, resR.2.1 ++ [r.get_hash], resR.2.2 ++ [Direction.Right])
        else (false, resR.2.1, resR.2.2)

/-- Mirrors Rust `MerkleTree::proof`. -/
def MerkleTree.proof (hs : String → Nat) (t : MerkleTree) (data : String) : Option Proof :=
  match MerkleTree.calculate_hash hs data with
  | none => none
  | some target =>
    match t.root with
    | none => none
    | some rt =>
      let res := Node.proof_recursion rt target [] []
      if res.1 then some ⟨target, res.2.1, res.2.2⟩ else none

/-- Whether some node of the tree (leaf or branch) stores hash `t`. -/
def containsHash (t : Nat) : Node → Bool
  | .Leaf h _ => h == t
  | .Branch h l m r =>
      h == t || containsHash t l || containsHash t m || containsHash t r

/-- Depths (number of ancestor branches) of every node whose stored hash
equals `t`; a node whose own hash matches is recorded and not descended into,
mirroring the search's short-circuit. -/
def matchDepths (t : Nat) : Node → List Nat
  | .Leaf h _ => if h == t then [0] else []
  | .Branch h l m r =>
      if h == t then [0]
      else (matchDepths t l ++ matchDepths t m ++ matchDepths t r).map (· + 1)

/-- Concrete injective stand-in for the string hash (`DefaultHasher` on the
UTF-8 bytes), used to evaluate the development on explicit inputs. -/
def hs0 (s : String) : Nat :=
  s.data.foldl (fun a c => a * 1114112 + c.toNat + 1) 1

/-- Concrete injective structural encoding of a node, playing the role of
feeding the node to a `Hasher` via `derive(Hash)`. -/
def nodeCode : Node → Nat
  | .Leaf h d => 2 * Nat.pair h (hs0 d)
  | .Branch h l m r =>
      2 * Nat.pair h (Nat.pair (nodeCode l) (Nat.pair (nodeCode m) (nodeCode r))) + 1

/-- Concrete branch-aggregation stand-in: combines the structural encodings of
the three children, as the Rust code hashes the three child nodes in order. -/
def h3c (a b c : Node) : Nat :=
  Nat.pair (nodeCode a) (Nat.pair (nodeCode b) (nodeCode c)) * 2 + 2

/-! ### Helper lemmas -/

/-- A folding pass never lengthens a level. -/
theorem build_tree_pass_length_le (h3 : Node → Node → Node → Nat) :
    ∀ l : List Node, (MerkleTree.build_tree_pass h3 l).length ≤ l.length
  | [] => by simp [MerkleTree.build_tree_pass]
  | [a] => by simp [MerkleTree.build_tree_pass]
  | [a, b] => by simp [MerkleTree.build_tree_pass]
  | a :: b :: c :: rest => by
      have ih := build_tree_pass_length_le h3 rest
      simp only [MerkleTree.build_tree_pass, List.length_cons]
      omega

/-- A folding pass over a level holding at least two nodes strictly shrinks
it: every group consumes at least one node and produces exactly one branch. -/
theorem build_tree_pass_length_lt (h3 : Node → Node → Node → Nat) :
    ∀ l : List Node, 2 ≤ l.length → (MerkleTree.build_tree_pass h3 l).length < l.length
  | [], h => by simp at h
  | [a], h => by simp at h
  | [a, b], _ => by simp [MerkleTree.build_tree_pass]
  | a :: b :: c :: rest, _ => by
      have ih := build_tree_pass_length_le h3 rest
      simp only [MerkleTree.build_tree_pass, List.length_cons]
      omega

/-- A folding pass over a nonempty level is nonempty. -/
theorem build_tree_pass_ne_nil (h3 : Node → Node → Node → Nat) :
    ∀ l : List Node, l ≠ [] → MerkleTree.build_tree_pass h3 l ≠ []
  | [], h => absurd rfl h
  | [a], _ => by simp [MerkleTree.build_tree_pass]
  | [a, b], _ => by simp [MerkleTree.build_tree_pass]
  | a :: b :: c :: rest, _ => by simp [MerkleTree.build_tree_pass]

/-- Every node of a level ends up as a child of some branch of the next
level, so a matching hash survives a folding pass. -/
theorem build_tree_pass_contains (h3 : Node → Node → Node → Nat) (t : Nat) :
    ∀ l : List Node, (∃ n ∈ l, containsHash t n = true) →
      ∃ b ∈ MerkleTree.build_tree_pass h3 l, containsHash t b = true
  | [], h => by simp at h
  | [a], h => by
      obtain ⟨n, hn, hc⟩ := h
      simp only [List.mem_singleton] at hn
      refine ⟨Node.Branch (h3 a a a) a a a, by simp [MerkleTree.build_tree_pass], ?_⟩
      subst hn
      simp [containsHash, hc]
  | [a, b], h => by
      obtain ⟨n, hn, hc⟩ := h
      simp only [List.mem_cons, List.not_mem_nil, or_false] at hn
      refine ⟨Node.Branch (h3 a b a) a b a, by simp [MerkleTree.build_tree_pass], ?_⟩
      rcases hn with h1 | h1 <;> subst h1 <;> simp [containsHash, hc]
  | a :: b :: c :: rest, h => by
      obtain ⟨n, hn, hc⟩ := h
      simp only [List.mem_cons] at hn
      rcases hn with h1 | h1 | h1 | hmem
      · refine ⟨Node.Branch (h3 a b c) a b c, by simp [MerkleTree.build_tree_pass], ?_⟩
        subst h1
        simp [containsHash, hc]
      · refine ⟨Node.Branch (h3 a b c) a b c, by simp [MerkleTree.build_tree_pass], ?_⟩
        subst h1
        simp [containsHash, hc]
      · refine ⟨Node.Branch (h3 a b c) a b c, by simp [MerkleTree.build_tree_pass], ?_⟩
        subst h1
        simp [containsHash, hc]
      · obtain ⟨bb, hbb, hcb⟩ := build_tree_pass_contains h3 t rest ⟨n, hmem, hc⟩
        exact ⟨bb, by simp [MerkleTree.build_tree_pass, hbb], hcb⟩

/-- With at most one node left the loop is the identity, whatever the fuel. -/
theorem build_tree_loop_small (h3 : Node → Node → Node → Nat) (f : Nat) (ns : List Node)
    (h : ns.length ≤ 1) : MerkleTree.build_tree_loop h3 f ns = ns := by
  cases f with
  | zero => rfl
  | succ f =>
      have hng : ¬ (ns.length > 1) := by omega
      simp [MerkleTree.build_tree_loop, hng]

/-- Any fuel at least the length of the level gives the same result: the
level-folding loop reaches its fixed point, i.e. it terminates. -/
theorem build_tree_loop_fuel_invariant (h3 : Node → Node → Node → Nat) :
    ∀ (f g : Nat) (ns : List Node), ns.length ≤ f → ns.length ≤ g →
      MerkleTree.build_tree_loop h3 f ns = MerkleTree.build_tree_loop h3 g ns
  | 0, g, ns, hf, hg => by
      have h1 : ns.length ≤ 1 := by omega
      rw [build_tree_loop_small h3 0 ns h1, build_tree_loop_small h3 g ns h1]
  | f + 1, g, ns, hf, hg => by
      by_cases h : ns.length > 1
      · obtain ⟨g', rfl⟩ : ∃ g', g = g' + 1 := ⟨g - 1, by omega⟩
        have h2 : 2 ≤ ns.reverse.length := by simp; omega
        have hlt := build_tree_pass_length_lt h3 ns.reverse h2
        simp only [List.length_reverse] at hlt
        simp only [MerkleTree.build_tree_loop, if_pos h]
        exact build_tree_loop_fuel_invariant h3 f g' _ (by omega) (by omega)
      · rw [build_tree_loop_small h3 _ ns (by omega), build_tree_loop_small h3 g ns (by omega)]

/-- A nonempty level with a matching hash folds, given sufficient fuel, to a
single root that still contains the hash. -/
theorem build_tree_loop_contains (h3 : Node → Node → Node → Nat) (t : Nat) :
    ∀ (fuel : Nat) (ns : List Node), ns ≠ [] → ns.length ≤ fuel →
      (∃ n ∈ ns, containsHash t n = true) →
      ∃ rt, MerkleTree.build_tree_loop h3 fuel ns = [rt] ∧ containsHash t rt = true
  | 0, ns, hne, hf, _ => by
      interval_cases h : ns.length
      · exact absurd (List.length_eq_zero.mp h) hne
  | fuel + 1, ns, hne, hf, hex => by
      by_cases h : ns.length > 1
      · have hrne : ns.reverse ≠ [] := by simpa using hne
        have h2 : 2 ≤ ns.reverse.length := by simp; omega
        have hlt := build_tree_pass_length_lt h3 ns.reverse h2
        simp only [List.length_reverse] at hlt
        have hex' : ∃ n ∈ ns.reverse, containsHash t n = true := by
          obtain ⟨n, hn, hc⟩ := hex
          exact ⟨n, List.mem_reverse.mpr hn, hc⟩
        obtain ⟨b, hb, hcb⟩ := build_tree_pass_contains h3 t ns.reverse hex'
        simp only [MerkleTree.build_tree_loop, if_pos h]
        exact build_tree_loop_contains h3 t fuel _
          (build_tree_pass_ne_nil h3 ns.reverse hrne) (by omega) ⟨b, hb, hcb⟩
      · match ns, hne with
        | [n], _ =>
            rw [build_tree_loop_small h3 _ _ (by simp)]
            obtain ⟨n', hn', hc⟩ := hex
            simp only [List.mem_singleton] at hn'
            subst hn'
            exact ⟨n', rfl, hc⟩
        | n1 :: n2 :: rest, _ => simp at h

/-- The found flag of the search is exactly `containsHash`, independently of
the accumulators. -/
theorem proof_recursion_found (t : Nat) :
    ∀ (n : Node) (ph : List Nat) (pd : List Direction),
      (Node.proof_recursion n t ph pd).1 = containsHash t n
  | .Leaf h d, ph, pd => rfl
  | .Branch h l m r, ph, pd => by
      cases hb : h == t with
      | true => simp [Node.proof_recursion, containsHash, hb]
      | false =>
        have hl := proof_recursion_found t l ph pd
        have hm := proof_recursion_found t m
          (Node.proof_recursion l t ph pd).2.1 (Node.proof_recursion l t ph pd).2.2
        have hr := proof_recursion_found t r
          (Node.proof_recursion m t (Node.proof_recursion l t ph pd).2.1
            (Node.proof_recursion l t ph pd).2.2).2.1
          (Node.proof_recursion m t (Node.proof_recursion l t ph pd).2.1
            (Node.proof_recursion l t ph pd).2.2).2.2
        simp only [Node.proof_recursion, containsHash, hb, Bool.false_eq_true, if_false,
          Bool.false_or]
        rw [← hl, ← hm, ← hr]
        split_ifs with h1 h2 h3 <;> simp_all

/-- The two accumulators keep equal lengths through the search: a hash and a
direction are always pushed together. -/
theorem proof_recursion_lengths (t : Nat) :
    ∀ (n : Node) (ph : List Nat) (pd : List Direction), ph.length = pd.length →
      (Node.proof_recursion n t ph pd).2.1.length = (Node.proof_recursion n t ph pd).2.2.length
  | .Leaf h d, ph, pd, hlen => hlen
  | .Branch h l m r, ph, pd, hlen => by
      cases hb : h == t with
      | true => simpa [Node.proof_recursion, hb] using hlen
      | false =>
        have h1 := proof_recursion_lengths t l ph pd hlen
        have h2 := proof_recursion_lengths t m
          (Node.proof_recursion l t ph pd).2.1 (Node.proof_recursion l t ph pd).2.2 h1
        have h3 := proof_recursion_lengths t r
          (Node.proof_recursion m t (Node.proof_recursion l t ph pd).2.1
            (Node.proof_recursion l t ph pd).2.2).2.1
          (Node.proof_recursion m t (Node.proof_recursion l t ph pd).2.1
            (Node.proof_recursion l t ph pd).2.2).2.2 h2
        simp only [Node.proof_recursion, hb, Bool.false_eq_true, if_false]
        split_ifs <;> simp [h3]

/-- A node whose own stored hash is the target reports a match at once,
leaving the accumulators untouched. -/
theorem proof_recursion_self_match (t : Nat) (n : Node) (ph : List Nat)
    (pd : List Direction) (h : n.get_hash = t) :
    Node.proof_recursion n t ph pd = (true, ph, pd) := by
  cases n with
  | Leaf hh d =>
      simp only [Node.get_hash] at h
      subst h
      simp [Node.proof_recursion]
  | Branch hh l m r =>
      simp only [Node.get_hash] at h
      subst h
      simp [Node.proof_recursion]

/-! ### Claim theorems -/

/-- C8: building from the empty item sequence yields a tree whose root is
absent, and `root_hash` returns `none` — absence, not an error. -/
theorem empty_input_no_root (hs : String → Nat) (h3 : Node → Node → Node → Nat) :
    (MerkleTree.new hs h3 []).root = none ∧ (MerkleTree.new hs h3 []).root_hash = none :=
  ⟨rfl, rfl⟩

/-- C7: for every single-item input `[x]` the built root is exactly the leaf
for `x`, with no branch wrapping, and `root_hash` is `hash(x)` — for any
choice of hash functions. -/
theorem singleton_root_is_leaf (hs : String → Nat) (h3 : Node → Node → Node → Nat)
    (x : String) :
    (MerkleTree.new hs h3 [x]).root = some (Node.Leaf (hs x) x) ∧
    (MerkleTree.new hs h3 [x]).root_hash = some (hs x) :=
  ⟨rfl, rfl⟩

/-- C1 (counterexample): for `S = ["a", "b"]` the produced branch is *not*
`{left = leaf "a", middle = leaf "b", right = leaf "a"}` with hash aggregated
in the order (a, b, a): the builder consumes the level by `Vec::pop`, i.e.
from the end, so the group starts with "b".  Checked on the concrete hash
instantiation. -/
theorem two_item_claimed_shape_false :
    (MerkleTree.new hs0 h3c ["a", "b"]).root ≠
      some (Node.Branch
        (h3c (Node.Leaf (hs0 "a") "a") (Node.Leaf (hs0 "b") "b") (Node.Leaf (hs0 "a") "a"))
        (Node.Leaf (hs0 "a") "a") (Node.Leaf (hs0 "b") "b") (Node.Leaf (hs0 "a") "a")) := by
  decide

/-- C1 (amended): for `S = ["a", "b"]` the tree is a single branch whose
padding slot is filled with the first node taken in the group; since the
level is consumed from the end of the vector, that first-taken node is the
leaf of "b", giving `{left = leaf "b", middle = leaf "a", right = leaf "b"}`
and the hash aggregated over the children in the order (b, a, b) — for any
choice of hash functions. -/
theorem two_item_tree_amended (hs : String → Nat) (h3 : Node → Node → Node → Nat) :
    (MerkleTree.new hs h3 ["a", "b"]).root =
      some (Node.Branch
        (h3 (Node.Leaf (hs "b") "b") (Node.Leaf (hs "a") "a") (Node.Leaf (hs "b") "b"))
        (Node.Leaf (hs "b") "b") (Node.Leaf (hs "a") "a") (Node.Leaf (hs "b") "b")) :=
  rfl

/-- C9: construction terminates on every input: a folding pass over a level
with more than one node strictly decreases the node count (each group
consumes at least one node and produces exactly one branch), and the
level-folding loop reaches its fixed point — any fuel at least the level
length yields the same result.  (The proof search `Node.proof_recursion` is
structurally recursive, hence total by construction.) -/
theorem build_terminates (h3 : Node → Node → Node → Nat) :
    (∀ l : List Node, 2 ≤ l.length →
      (MerkleTree.build_tree_pass h3 l).length < l.length) ∧
    (∀ (f g : Nat) (ns : List Node), ns.length ≤ f → ns.length ≤ g →
      MerkleTree.build_tree_loop h3 f ns = MerkleTree.build_tree_loop h3 g ns) :=
  ⟨build_tree_pass_length_lt h3, build_tree_loop_fuel_invariant h3⟩

/-- Witness for C9 at a concrete two-node level and a concrete fuel pair. -/
theorem build_terminates_witness :
    (MerkleTree.build_tree_pass h3c [Node.Leaf 1 "x", Node.Leaf 2 "y"]).length < 2 ∧
    MerkleTree.build_tree_loop h3c 5 [Node.Leaf 1 "x"] =
      MerkleTree.build_tree_loop h3c 1 [Node.Leaf 1 "x"] :=
  ⟨(build_terminates h3c).1 [Node.Leaf 1 "x", Node.Leaf 2 "y"] (by decide),
   (build_terminates h3c).2 5 1 [Node.Leaf 1 "x"] (by decide) (by decide)⟩

/-- C5: an input on which the returned proof is longer than the number of
ancestor branches of any matched node.  For `["a", "b", "c", "d"]` every node
whose hash is `hash("a")` sits at depth 2 (two ancestor branches), yet the
proof for "a" carries 3 hash/direction entries: the duplicated padding
subtree makes the target match in more than one child, and all recursive
calls push into the same shared accumulators. -/
theorem shared_accumulator_overlong_proof :
    ((MerkleTree.new hs0 h3c ["a", "b", "c", "d"]).root.map (matchDepths (hs0 "a"))) =
      some [2, 2, 2, 2, 2, 2] ∧
    (((MerkleTree.new hs0 h3c ["a", "b", "c", "d"]).proof hs0 "a").map
      (fun p => p.proof_hashes.length)) = some 3 := by
  decide

/-- C6: a node whose stored hash equals the target reports a match at once,
without descending and without appending anything; in particular when the
root's hash equals the target hash the generated proof has empty
hash/direction sequences. -/
theorem branch_hash_match_short_circuit (hs : String → Nat) :
    (∀ (h t : Nat) (l m r : Node) (ph : List Nat) (pd : List Direction), h = t →
      Node.proof_recursion (Node.Branch h l m r) t ph pd = (true, ph, pd)) ∧
    (∀ (tr : MerkleTree) (rt : Node) (data : String),
      tr.root = some rt → rt.get_hash = hs data →
      tr.proof hs data = some ⟨hs data, [], []⟩) := by
  constructor
  · intro h t l m r ph pd hEq
    exact proof_recursion_self_match t (Node.Branch h l m r) ph pd hEq
  · intro tr rt data hroot hhash
    simp only [MerkleTree.proof, MerkleTree.calculate_hash, hroot]
    rw [proof_recursion_self_match (hs data) rt [] [] hhash]
    simp

/-- Witness for C6: a branch whose own hash is the target, and a tree whose
root hash is the target of the queried item. -/
theorem branch_hash_match_short_circuit_witness :
    Node.proof_recursion
        (Node.Branch 5 (Node.Leaf 1 "a") (Node.Leaf 2 "b") (Node.Leaf 3 "c")) 5
        [7] [Direction.Right] = (true, [7], [Direction.Right]) ∧
    (MerkleTree.mk (some (Node.Leaf (hs0 "q") "q"))).proof hs0 "q" =
      some ⟨hs0 "q", [], []⟩ :=
  ⟨(branch_hash_match_short_circuit hs0).1 5 5 (Node.Leaf 1 "a") (Node.Leaf 2 "b")
      (Node.Leaf 3 "c") [7] [Direction.Right] rfl,
   (branch_hash_match_short_circuit hs0).2 (MerkleTree.mk (some (Node.Leaf (hs0 "q") "q")))
      (Node.Leaf (hs0 "q") "q") "q" rfl rfl⟩

/-- C2: whenever a branch's own hash is not the target but the target is
found below it, the search appends exactly the hash of the first matching
child — checked in Left, then Middle, then Right order — together with that
child's direction label, and it appends them after (outside) everything the
three child searches pushed, i.e. pushes happen on the unwind, innermost
match first. -/
theorem first_matching_child_appended (h t : Nat) (l m r : Node) (ph : List Nat)
    (pd : List Direction) (hne : h ≠ t)
    (hfound : containsHash t (Node.Branch h l m r) = true) :
    Node.proof_recursion (Node.Branch h l m r) t ph pd =
      (let resL := Node.proof_recursion l t ph pd
       let resM := Node.proof_recursion m t resL.2.1 resL.2.2
       let resR := Node.proof_recursion r t resM.2.1 resM.2.2
       let cd : Node × Direction :=
         if containsHash t l then (l, Direction.Left)
         else if containsHash t m then (m, Direction.Middle)
         else (r, Direction.Right)
       (true, resR.2.1 ++ [cd.1.get_hash], resR.2.2 ++ [cd.2])) := by
  have hb : (h == t) = false := by simpa using hne
  simp only [containsHash, hb, Bool.false_or, Bool.or_eq_true] at hfound
  simp only [Node.proof_recursion, hb, Bool.false_eq_true, if_false]
  rw [proof_recursion_found, proof_recursion_found, proof_recursion_found]
  by_cases hl : containsHash t l = true
  · simp [hl]
  · by_cases hm : containsHash t m = true
    · simp [hl, hm]
    · have hr : containsHash t r = true := by tauto
      simp [hl, hm, hr]

/-- Witness for C2: at the concrete branch the first matching child is the
left leaf, so its hash and the Left label are appended. -/
theorem first_matching_child_appended_witness :
    Node.proof_recursion
        (Node.Branch 10 (Node.Leaf 3 "x") (Node.Leaf 4 "y") (Node.Leaf 3 "z")) 3 [] [] =
      (true, [3], [Direction.Left]) :=
  first_matching_child_appended 10 3 (Node.Leaf 3 "x") (Node.Leaf 4 "y") (Node.Leaf 3 "z")
    [] [] (by decide) (by decide)

/-- C10: every proof returned by the generator has hash and direction
sequences of equal length — a hash and a direction are always pushed as a
pair. -/
theorem generated_proof_lengths_match (hs : String → Nat) (t : MerkleTree)
    (data : String) (p : Proof) (h : t.proof hs data = some p) :
    p.proof_hashes.length = p.proof_directions.length := by
  cases hroot : t.root with
  | none => simp [MerkleTree.proof, MerkleTree.calculate_hash, hroot] at h
  | some rt =>
      simp only [MerkleTree.proof, MerkleTree.calculate_hash, hroot] at h
      by_cases hf : (Node.proof_recursion rt (hs data) [] []).1 = true
      · rw [if_pos hf] at h
        obtain rfl := (Option.some.injEq _ _).mp h
        exact proof_recursion_lengths (hs data) rt [] [] rfl
      · rw [if_neg hf] at h
        exact absurd h (by simp)

/-- Witness for C10 at the two-item tree: the proof for "a" has one hash and
one direction. -/
theorem generated_proof_lengths_match_witness :
    (Proof.mk (hs0 "a") [hs0 "a"] [Direction.Middle]).proof_hashes.length =
      (Proof.mk (hs0 "a") [hs0 "a"] [Direction.Middle]).proof_directions.length :=
  generated_proof_lengths_match hs0 (MerkleTree.new hs0 h3c ["a", "b"]) "a"
    (Proof.mk (hs0 "a") [hs0 "a"] [Direction.Middle]) (by decide)

/-- C4: the generator returns `none` exactly when the tree has no root or no
node of the tree — leaf or branch — stores a hash equal to the hash computed
from the item; in every other case it returns a proof. -/
theorem proof_none_iff (hs : String → Nat) (t : MerkleTree) (data : String) :
    t.proof hs data = none ↔
      (t.root = none ∨ ∃ rt, t.root = some rt ∧ containsHash (hs data) rt = false) := by
  cases hroot : t.root with
  | none => simp [MerkleTree.proof, MerkleTree.calculate_hash, hroot]
  | some rt =>
      simp only [MerkleTree.proof, MerkleTree.calculate_hash, hroot]
      rw [show (Node.proof_recursion rt (hs data) [] []).1 = containsHash (hs data) rt from
        proof_recursion_found (hs data) rt [] []]
      cases hc : containsHash (hs data) rt with
      | true => simp [hc]
      | false => simp [hc]

/-- C3: for every item list and every item occurring in it, the proof built
on the constructed tree is present — for any choice of hash functions. -/
theorem proof_complete (hs : String → Nat) (h3 : Node → Node → Node → Nat)
    (S : List String) (x : String) (hx : x ∈ S) :
    ((MerkleTree.new hs h3 S).proof hs x).isSome = true := by
  have hmem : Node.Leaf (hs x) x ∈ S.map (fun d => Node.Leaf (hs d) d) :=
    List.mem_map_of_mem _ hx
  have hc : containsHash (hs x) (Node.Leaf (hs x) x) = true := by simp [containsHash]
  have hne : S.map (fun d => Node.Leaf (hs d) d) ≠ [] := List.ne_nil_of_mem hmem
  obtain ⟨rt, hloop, hcrt⟩ := build_tree_loop_contains h3 (hs x)
    (S.map (fun d => Node.Leaf (hs d) d)).length (S.map (fun d => Node.Leaf (hs d) d))
    hne le_rfl ⟨_, hmem, hc⟩
  have hroot : (MerkleTree.new hs h3 S).root = some rt := by
    have hie : (S.map (fun d => Node.Leaf (hs d) d)).isEmpty = false := by
      cases hS : S.map (fun d => Node.Leaf (hs d) d) with
      | nil => exact absurd hS hne
      | cons a as => rfl
    simp only [MerkleTree.new, MerkleTree.build_tree, hie, Bool.false_eq_true, if_false,
      hloop]
    rfl
  simp only [MerkleTree.proof, MerkleTree.calculate_hash, hroot]
  rw [show (Node.proof_recursion rt (hs x) [] []).1 = containsHash (hs x) rt from
    proof_recursion_found (hs x) rt [] []]
  simp [hcrt]

/-- Witness for C3 at a concrete four-item list and member. -/
theorem proof_complete_witness :
    ((MerkleTree.new hs0 h3c ["a", "b", "c", "d"]).proof hs0 "c").isSome = true :=
  proof_complete hs0 h3c ["a", "b", "c", "d"] "c" (by decide)
